import Mathlib

/-!
Verification of the BSDIFF40 patch applier with extent addressing
(bspatch.c, exfile.c, extents.h of the Android external bsdiff tree).

The development shallowly embeds the patch interpreter and the extent view:
byte buffers are `List Nat` (each entry a byte value), machine integers
are `Int`/`Nat` with explicit `% 256` where the C code relies on unsigned
8-bit wrap-around, and fallible operations return `Option`.  The bzip2
decompressor is a black box in the source, so the engine here consumes the
already-decompressed control, diff and extra streams.
-/

namespace Bspatch

/-! ## Sign-magnitude decoder (bspatch.c, `offtin`) -/

/-- Decoder for the 8-byte sign-magnitude little-endian integers of the
BSDIFF40 format, translated line by line from `offtin` in bspatch.c:
`y = buf[7] & 0x7F` followed by seven Horner steps `y = y*256 + buf[i]`
for i = 6 down to 0, negated when `buf[7] & 0x80` is set. -/
def offtin (buf : List Nat) : Int :=
  let y0 : Int := (Nat.land (buf.getD 7 0) 0x7F : Nat)
  let y1 : Int := y0 * 256 + (buf.getD 6 0 : Nat)
  let y2 : Int := y1 * 256 + (buf.getD 5 0 : Nat)
  let y3 : Int := y2 * 256 + (buf.getD 4 0 : Nat)
  let y4 : Int := y3 * 256 + (buf.getD 3 0 : Nat)
  let y5 : Int := y4 * 256 + (buf.getD 2 0 : Nat)
  let y6 : Int := y5 * 256 + (buf.getD 1 0 : Nat)
  let y7 : Int := y6 * 256 + (buf.getD 0 0 : Nat)
  if Nat.land (buf.getD 7 0) 0x80 ≠ 0 then -y7 else y7

/-- Modelled from the spec: the encoder `offtout` lives in bsdiff.c, which is
not among the provided sources.  Per the spec, an integer `v` with
`|v| ≤ 2^63 - 1` is encoded as the eight little-endian base-256 digits of
its magnitude, with the last byte restricted to its low 7 bits and the high
bit of the last byte set exactly when `v` is negative. -/
def offtout (v : Int) : List Nat :=
  let m := v.natAbs
  [m % 256, m / 256 % 256, m / 256 ^ 2 % 256, m / 256 ^ 3 % 256,
   m / 256 ^ 4 % 256, m / 256 ^ 5 % 256, m / 256 ^ 6 % 256,
   m / 256 ^ 7 % 128 + (if v < 0 then 128 else 0)]

/-- The sign-magnitude encoding of negative zero: all magnitude bytes zero
with the sign bit set. -/
def negZeroEnc : List Nat := [0, 0, 0, 0, 0, 0, 0, 128]

/-! ## Patch header (bspatch.c, `main`, header section) -/

/-- The ASCII bytes of the magic string "BSDIFF40". -/
def magicBytes : List Nat := [66, 83, 68, 73, 70, 70, 52, 48]

/-- Header validation from `main` in bspatch.c: a 32-byte header must begin
with the magic "BSDIFF40"; the three lengths are decoded with `offtin` at
offsets 8, 16 and 24 and must all be non-negative; any failure is the
Corrupt-patch error (`none`). -/
def readHeader (hdr : List Nat) : Option (Int × Int × Int) :=
  if hdr.length < 32 then none
  else if hdr.take 8 ≠ magicBytes then none
  else
    let bzctrllen := offtin (hdr.drop 8)
    let bzdatalen := offtin (hdr.drop 16)
    let newsize := offtin (hdr.drop 24)
    if bzctrllen < 0 ∨ bzdatalen < 0 ∨ newsize < 0 then none
    else some (bzctrllen, bzdatalen, newsize)

/-! ## Reconstruction engine (bspatch.c, `main`, patch loop) -/

/-- The additive step of the engine, translated from the loop
`for(i=0;i<ctrl[0];i++) if((oldpos+i>=0)&&(oldpos+i<oldsize))
new[newpos+i]+=old[oldpos+i];` in bspatch.c.  `seg` is the slice of the
new buffer just filled from the diff stream (so index `i` of `seg` is
`new[newpos+i]`); the addition is on unsigned bytes, hence `% 256`. -/
def addOldFrom (old : List Nat) (oldpos : Int) (seg : List Nat) (i : Nat) :
    List Nat :=
  if h : i < seg.length then
    addOldFrom old oldpos
      (if 0 ≤ oldpos + i ∧ oldpos + i < (old.length : Int) then
        seg.set i ((seg.get ⟨i, h⟩ + old.getD (oldpos + i).toNat 0) % 256)
      else seg) (i + 1)
  else seg
termination_by seg.length - i
decreasing_by
  split
  · simp only [List.length_set]; omega
  · omega

/-- One iteration of the reconstruction loop of `main` in bspatch.c, for a
single control triple.  Returns the updated old-cursor, the written prefix
of the new image, and the unconsumed parts of the diff and extra streams;
`none` is the Corrupt-patch error.  The checks appear in source order:
`ctrl[0]<0||ctrl[1]<0` (the android local change), the sanity check
`newpos+ctrl[0]>newsize`, the diff read (short read is corruption), the
additive step, the sanity check `newpos+ctrl[1]>newsize`, and the extra
read. -/
def bspatchIter (old : List Nat) (newsize : Nat) (t : Int × Int × Int)
    (diff extra : List Nat) (oldpos : Int) (newb : List Nat) :
    Option (Int × List Nat × List Nat × List Nat) :=
  let x := t.1
  let y := t.2.1
  let z := t.2.2
  if x < 0 ∨ y < 0 then none
  else if (newb.length : Int) + x > (newsize : Int) then none
  else if diff.length < x.toNat then none
  else
    let newb1 := newb ++ addOldFrom old oldpos (diff.take x.toNat) 0
    if (newb1.length : Int) + y > (newsize : Int) then none
    else if extra.length < y.toNat then none
    else some (oldpos + x + z, newb1 ++ extra.take y.toNat,
               diff.drop x.toNat, extra.drop y.toNat)

/-- The reconstruction loop `while(newpos<newsize)` of `main` in bspatch.c.
`newb` is the prefix of the new image written so far (its length is
`newpos`); each loop iteration consumes one decoded control triple.  An
exhausted control stream while more output is due models the short
`BZ2_bzRead` of control data, which is corruption. -/
def bspatchLoop (old : List Nat) (newsize : Nat)
    (ctrl : List (Int × Int × Int)) (diff extra : List Nat) (oldpos : Int)
    (newb : List Nat) : Option (List Nat) :=
  if newb.length < newsize then
    match ctrl with
    | [] => none
    | t :: ctrl' =>
      match bspatchIter old newsize t diff extra oldpos newb with
      | none => none
      | some (op', nb', d', e') =>
        bspatchLoop old newsize ctrl' d' e' op' nb'
  else some newb

/-- The patch-application pipeline of `main` in bspatch.c after the streams
are decompressed: validate the header, then run the reconstruction loop
with `oldpos = newpos = 0`.  There is no step between the header check and
the engine other than allocating the new buffer of `newsize + 1` bytes,
which carries no size ceiling. -/
def applyPatch (hdr : List Nat) (ctrl : List (Int × Int × Int))
    (diff extra old : List Nat) : Option (List Nat) :=
  match readHeader hdr with
  | none => none
  | some (_, _, newsize) => bspatchLoop old newsize.toNat ctrl diff extra 0 []

/-! ## Legacy positioned read (bspatch.c, `PositionedRead`) -/

/-- The length-accumulation loop of `PositionedRead` in bspatch.c, over the
sequence of int64 values produced by `NextInt64` from the validated
positions string: values are consumed in pairs (offset, length); a missing
length is a parse error, a negative length is refused, and otherwise the
lengths are summed. -/
def sumPosLens : List Int → Option Int
  | [] => some 0
  | [_] => none
  | _ :: len :: rest =>
    if len < 0 then none
    else match sumPosLens rest with
      | none => none
      | some s => some (len + s)

/-- The read loop of `PositionedRead` in bspatch.c over the same pair
sequence: a negative offset (sparse hole) is refused during read, and each
chunk is a `pread` of `length` bytes at `offset`, where a short read is an
error. -/
def positionedReadBytes (file : List Nat) : List Int → Option (List Nat)
  | [] => some []
  | [_] => none
  | off :: len :: rest =>
    if off < 0 then none
    else if len < 0 then none
    else
      let chunk := (file.drop off.toNat).take len.toNat
      if chunk.length ≠ len.toNat then none
      else match positionedReadBytes file rest with
        | none => none
        | some bs => some (chunk ++ bs)

/-- `PositionedRead` from bspatch.c with the string already tokenised into
its int64 values: sum the declared lengths, refuse the allocation when the
sum exceeds the 1 GiB sanity ceiling (`length > 0x40000000`), then read the
extents. -/
def PositionedRead (file : List Nat) (vals : List Int) : Option (List Nat) :=
  match sumPosLens vals with
  | none => none
  | some length =>
    if length > 0x40000000 then none
    else positionedReadBytes file vals

/-! ## Extent view (exfile.c) -/

/-- An extent (`ex_t` in exfile.h): an offset into the underlying file,
negative for a sparse extent, and a length. -/
structure Ex where
  off : Int
  len : Nat
deriving Repr, DecidableEq

/-- Total length of a list of extents. -/
def sumLens (l : List Ex) : Nat := (l.map Ex.len).sum

/-- `prefix_len_arr[k].prec` of exfile.c: total length of the extents
before index `k`. -/
def precLen (l : List Ex) (k : Nat) : Nat := sumLens (l.take k)

/-- The length of extent `k`, or 0 out of range. -/
def lenAt (l : List Ex) (k : Nat) : Nat := ((l.get? k).map Ex.len).getD 0

/-- `total_ex_len` as computed by `exfile_open` in exfile.c: the `total`
entry of the last element of the prefix-length array. -/
def totalExLen (l : List Ex) : Nat :=
  precLen l (l.length - 1) + lenAt l (l.length - 1)

/-- The mutable state of an extent file (`exfile_t` in exfile.c), minus the
file descriptor and the release hook: the extent array, the lazily tracked
underlying file position (`-1` when unknown), the current extent index, the
position within the current extent, and the logical position. -/
structure ExfileSt where
  exArr : List Ex
  currFilePos : Int
  currExIdx : Nat
  currExPos : Nat
  currPos : Int
deriving Repr, DecidableEq

/-- The representation invariant of `exfile_t` stated in the exfile.c
header comment: `curr_ex_idx` ranges over `[0, ex_count]` and is the count
only with `curr_ex_pos = 0`; `curr_ex_pos` stays within the current extent
length; and `curr_pos` equals the length of the preceding extents plus
`curr_ex_pos`. -/
def ExInv (xf : ExfileSt) : Prop :=
  xf.currExIdx ≤ xf.exArr.length ∧
  (xf.currExIdx = xf.exArr.length → xf.currExPos = 0) ∧
  (∀ h : xf.currExIdx < xf.exArr.length,
    xf.currExPos ≤ (xf.exArr.get ⟨xf.currExIdx, h⟩).len) ∧
  xf.currPos = (precLen xf.exArr xf.currExIdx : Int) + (xf.currExPos : Int)

/-- Overwrite of the underlying file at a byte position, as performed by
`write(2)` on a regular file: bytes before `pos` are kept, a gap past the
end of the file reads back as zeros, and the file grows as needed. -/
def writeAt (file : List Nat) (pos : Nat) (data : List Nat) : List Nat :=
  file.take pos ++ List.replicate (pos - file.length) 0 ++ data ++
    file.drop (pos + data.length)

/-- Failure oracle for the underlying syscalls made by the read direction
of `exfile_io`: `seekOk k` tells whether the `k`-th syscall (an `lseek`)
succeeds, `readOk k` whether the `k`-th syscall (a `read`) succeeds.
Successful reads return the actual file bytes (short only at end of file),
as `pread`-style reads of a regular file do. -/
structure ROracle where
  seekOk : Nat → Bool
  readOk : Nat → Bool

/-- Failure oracle for the underlying syscalls made by the write direction
of `exfile_io`: `seekOk k` tells whether the `k`-th syscall (an `lseek`)
succeeds; `writeRes k c` is the return value of the `k`-th syscall when it
is a `write` of `c` bytes (a negative value is an error, otherwise the
number of bytes accepted). -/
structure WOracle where
  seekOk : Nat → Bool
  writeRes : Nat → Nat → Int

/-- `exfile_io` of exfile.c specialised to `do_read = TRUE` (the body of
`exfile_read`).  `n` numbers the underlying syscalls for the oracle.
Returns the bytes delivered into the caller's buffer, the updated state,
the return value (`-1` exactly when an underlying error occurs before any
byte was transferred, as `error_ret_val` is `-1` for reads), and the next
syscall number.  Each loop pass handles one extent chunk: skip zero-length
extents, lazily `lseek` for a real extent, transfer
`min(size, curr_ex_rem_len)` bytes (a `memset` of zeros for a sparse
extent), and stop early if the chunk did not finish the extent. -/
def exfile_read (orc : ROracle) (n : Nat) (file : List Nat) (xf : ExfileSt)
    (size : Nat) : List Nat × ExfileSt × Int × Nat :=
  if size = 0 then ([], xf, 0, n)
  else
    if h : xf.currExIdx < xf.exArr.length then
      let ex := xf.exArr.get ⟨xf.currExIdx, h⟩
      if _hrem : ex.len - xf.currExPos = 0 then
        exfile_read orc n file
          { xf with currExIdx := xf.currExIdx + 1, currExPos := 0 } size
      else
        let rem := ex.len - xf.currExPos
        if 0 ≤ ex.off then
          let fpos := ex.off + (xf.currExPos : Int)
          if xf.currFilePos ≠ fpos ∧ ¬ orc.seekOk n then
            ([], { xf with currFilePos := -1 }, -1, n + 1)
          else
            let n1 := if xf.currFilePos ≠ fpos then n + 1 else n
            let ioCount := min size rem
            if ¬ orc.readOk n1 then
              ([], { xf with currFilePos := fpos }, -1, n1 + 1)
            else
              let data := (file.drop fpos.toNat).take ioCount
              let ioBytes := data.length
              let xf1 : ExfileSt :=
                { xf with currExPos := xf.currExPos + ioBytes,
                          currFilePos := fpos + (ioBytes : Int),
                          currPos := xf.currPos + (ioBytes : Int) }
              if rem - ioBytes > 0 then (data, xf1, (ioBytes : Int), n1 + 1)
              else
                let r := exfile_read orc (n1 + 1) file xf1 (size - ioBytes)
                (data ++ r.1, r.2.1,
                 (ioBytes : Int) + (if r.2.2.1 < 0 then 0 else r.2.2.1),
                 r.2.2.2)
        else
          let ioCount := min size rem
          let data := List.replicate ioCount 0
          let xf1 : ExfileSt :=
            { xf with currExPos := xf.currExPos + ioCount,
                      currPos := xf.currPos + (ioCount : Int) }
          if rem - ioCount > 0 then (data, xf1, (ioCount : Int), n)
          else
            let r := exfile_read orc n file xf1 (size - ioCount)
            (data ++ r.1, r.2.1,
             (ioCount : Int) + (if r.2.2.1 < 0 then 0 else r.2.2.1),
             r.2.2.2)
    else ([], xf, 0, n)
termination_by (size, xf.exArr.length - xf.currExIdx)
decreasing_by
  · apply Prod.Lex.right; omega
  · apply Prod.Lex.left
    unfold_let at *
    simp only [List.length_take, List.length_drop] at *
    omega
  · apply Prod.Lex.left
    unfold_let at *
    omega

/-- `exfile_io` of exfile.c specialised to `do_read = FALSE` (the body of
`exfile_write`), with the same loop structure as `exfile_read`.  Returns
the updated underlying file content, the updated state, the count of bytes
consumed from `buf` (`error_ret_val` is `0` for writes, so an early error
returns the bytes consumed so far, never a negative value), and the next
syscall number.  Sparse extents consume bytes with no syscall; real
extents lazily `lseek` and then `write`. -/
def exfile_write (orc : WOracle) (n : Nat) (file : List Nat)
    (xf : ExfileSt) (buf : List Nat) : List Nat × ExfileSt × Int × Nat :=
  if buf.length = 0 then (file, xf, 0, n)
  else
    if h : xf.currExIdx < xf.exArr.length then
      let ex := xf.exArr.get ⟨xf.currExIdx, h⟩
      if _hrem : ex.len - xf.currExPos = 0 then
        exfile_write orc n file
          { xf with currExIdx := xf.currExIdx + 1, currExPos := 0 } buf
      else
        let rem := ex.len - xf.currExPos
        if 0 ≤ ex.off then
          let fpos := ex.off + (xf.currExPos : Int)
          if xf.currFilePos ≠ fpos ∧ ¬ orc.seekOk n then
            (file, { xf with currFilePos := -1 }, 0, n + 1)
          else
            let n1 := if xf.currFilePos ≠ fpos then n + 1 else n
            let ioCount := min buf.length rem
            let ioRes := orc.writeRes n1 ioCount
            if ioRes < 0 then
              (file, { xf with currFilePos := fpos }, 0, n1 + 1)
            else
              let ioBytes := ioRes.toNat
              let file1 := writeAt file fpos.toNat (buf.take ioBytes)
              let xf1 : ExfileSt :=
                { xf with currExPos := xf.currExPos + ioBytes,
                          currFilePos := fpos + (ioBytes : Int),
                          currPos := xf.currPos + (ioBytes : Int) }
              if rem - ioBytes > 0 then (file1, xf1, (ioBytes : Int), n1 + 1)
              else
                let r := exfile_write orc (n1 + 1) file1 xf1 (buf.drop ioBytes)
                (r.1, r.2.1, (ioBytes : Int) + r.2.2.1, r.2.2.2)
        else
          let ioCount := min buf.length rem
          let xf1 : ExfileSt :=
            { xf with currExPos := xf.currExPos + ioCount,
                      currPos := xf.currPos + (ioCount : Int) }
          if rem - ioCount > 0 then (file, xf1, (ioCount : Int), n)
          else
            let r := exfile_write orc n file xf1 (buf.drop ioCount)
            (r.1, r.2.1, (ioCount : Int) + r.2.2.1, r.2.2.2)
    else (file, xf, 0, n)
termination_by (buf.length, xf.exArr.length - xf.currExIdx)
decreasing_by
  · apply Prod.Lex.right; omega
  · apply Prod.Lex.left
    unfold_let at *
    simp only [List.length_take, List.length_drop] at *
    omega
  · apply Prod.Lex.left
    unfold_let at *
    simp only [List.length_take, List.length_drop] at *
    omega

/-! ## Extent search and seek (exfile.c, `ex_arr_search`, `exfile_seek`) -/

/-- `prefix_len_arr[k].total` of exfile.c: total length of the extents up
to and including index `k`. -/
def totLenAt (l : List Ex) (k : Nat) : Nat := precLen l k + lenAt l k

/-- The leftward exponential phase of `ex_arr_search`: while `i > 0` and
the position is before the prefix of extent `i`, move `j` to `i - 1` and
leap `i` left by a doubling amount (clamped at 0).  `fuel` bounds the
iteration count; the C loop always terminates within `ex_count + 1` steps,
so the fuel is never exhausted on the inputs the code reaches. -/
def goLeft (l : List Ex) (pos : Nat) :
    Nat → Int → Int → Nat → Int × Int
  | 0, i, j, _ => (i, j)
  | fuel + 1, i, j, leap =>
    if 0 < i ∧ (pos : Int) < (precLen l i.toNat : Int) then
      let j' := i - 1
      let i' := if i - (leap : Int) < 0 then 0 else i - (leap : Int)
      goLeft l pos fuel i' j' (leap * 2)
    else (i, j)

/-- The rightward exponential phase of `ex_arr_search`, mirror image of
the leftward phase: while `j` is before the last extent and the position
is at or past the total of extent `j`, move `i` to `j + 1` and leap `j`
right by a doubling amount (clamped at the last index). -/
def goRight (l : List Ex) (pos : Nat) :
    Nat → Int → Int → Nat → Int × Int
  | 0, i, j, _ => (i, j)
  | fuel + 1, i, j, leap =>
    if j < (l.length : Int) - 1 ∧ (pos : Int) ≥ (totLenAt l j.toNat : Int) then
      let i' := j + 1
      let j' := if j + (leap : Int) > (l.length : Int) - 1
                then (l.length : Int) - 1 else j + (leap : Int)
      goRight l pos fuel i' j' (leap * 2)
    else (i, j)

/-- The final binary-search phase of `ex_arr_search`: repeatedly take the
midpoint `k = (i + j) / 2` (C integer division) and narrow the interval
until the position lies inside extent `k`.  Fuel-bounded as above. -/
def binSearch (l : List Ex) (pos : Nat) : Nat → Int → Int → Nat
  | 0, _, _ => 0
  | fuel + 1, i, j =>
    let k := Int.div (i + j) 2
    if (pos : Int) < (precLen l k.toNat : Int) then binSearch l pos fuel i (k - 1)
    else if (pos : Int) ≥ (totLenAt l k.toNat : Int) then
      binSearch l pos fuel (k + 1) j
    else k.toNat

/-- `ex_arr_search` of exfile.c: locate the extent containing logical
position `pos`, starting from `initIdx`, by the exponential-then-binary
search.  An `initIdx` equal to the extent count is first adjusted to the
last extent. -/
def ex_arr_search (l : List Ex) (pos : Nat) (initIdx : Nat) : Nat :=
  let fuel := l.length + 2
  let init : Int := if initIdx = l.length then (l.length : Int) - 1
                    else (initIdx : Int)
  match goLeft l pos fuel init init 1 with
  | (i1, j1) =>
    match goRight l pos fuel i1 j1 1 with
    | (i2, j2) => binSearch l pos fuel i2 j2

/-- The three `whence` values accepted by `exfile_seek`. -/
inductive Whence where
  | seekSet
  | seekCur
  | seekEnd
deriving Repr, DecidableEq

/-- The absolute logical target position computed at the top of
`exfile_seek` in exfile.c from the offset and `whence`. -/
def seekTarget (xf : ExfileSt) (pos : Int) (whence : Whence) : Int :=
  match whence with
  | .seekSet => pos
  | .seekCur => pos + xf.currPos
  | .seekEnd => pos + (totalExLen xf.exArr : Int)

/-- `exfile_seek` of exfile.c.  The target must lie in
`[0, total_ex_len]`, with the end position itself valid; otherwise the
call fails (C returns -1, here `none`) before touching any state.  On a
change of position the containing extent is located, with the end-of-file
and zero positions special-cased ahead of the search, and the three
logical position markers are updated. -/
def exfile_seek (xf : ExfileSt) (pos : Int) (whence : Whence) :
    ExfileSt × Option Int :=
  let newPos := seekTarget xf pos whence
  if newPos < 0 ∨ newPos > (totalExLen xf.exArr : Int) then (xf, none)
  else
    let xf' :=
      if newPos ≠ xf.currPos then
        let newExIdx :=
          if newPos = (totalExLen xf.exArr : Int) then xf.exArr.length
          else if newPos ≠ 0 then
            ex_arr_search xf.exArr newPos.toNat xf.currExIdx
          else 0
        { xf with
          currExIdx := newExIdx,
          currExPos :=
            if newExIdx < xf.exArr.length then
              (newPos - (precLen xf.exArr newExIdx : Int)).toNat
            else 0,
          currPos := newPos }
      else xf
    (xf', some newPos)

/-! ## Extent-string parser (extents.c, `extents_parse`) -/

/-- Whether a character list is a non-empty run of decimal digits. -/
def allDigits (cs : List Char) : Bool :=
  cs ≠ [] && cs.all (fun c => c.isDigit)

/-- Numeric value of a run of decimal digits. -/
def digitsVal (cs : List Char) : Nat :=
  cs.foldl (fun acc c => acc * 10 + (c.toNat - 48)) 0

/-- Split a character list at every occurrence of the separator `c`; like
`String.splitOn`, the empty input yields the single empty component. -/
def splitOnChar (c : Char) : List Char → List (List Char)
  | [] => [[]]
  | x :: xs =>
    let r := splitOnChar c xs
    if x = c then [] :: r
    else (x :: r.headD []) :: r.tail

/-- Modelled from the spec: parse of one `offset:length` pair of the
extent grammar of spec section 4.1 (`offset = "-"? digit+`,
`length = digit+`), with each numeric literal required to fit a signed
64-bit integer and the length required to be strictly positive.  The code
itself (`extents_parse` of extents.c) is not among the provided sources;
only its header extents.h is. -/
def parsePair (cs : List Char) : Option Ex :=
  match splitOnChar ':' cs with
  | [offTok, lenTok] =>
    let negative := offTok.take 1 = ['-']
    let offDigits := if negative then offTok.drop 1 else offTok
    if ¬ allDigits offDigits then none
    else if ¬ allDigits lenTok then none
    else
      let mag := digitsVal offDigits
      let len := digitsVal lenTok
      if (mag : Int) > 2 ^ 63 - 1 then none
      else if (len : Int) > 2 ^ 63 - 1 then none
      else if len = 0 then none
      else some ⟨if negative then -(mag : Int) else (mag : Int), len⟩
  | _ => none

/-- Modelled from the spec: `extents_parse` of extents.c (not among the
provided sources), per the spec grammar `pair ("," pair)*` and the
extents.h header comment: a comma-separated, non-empty list of
`offset:length` pairs.  Splitting any string on `","` yields at least one
component, and the empty string yields the single component `""`, which is
not a valid pair, so the empty specification fails to parse. -/
def extents_parse (s : String) : Option (List Ex) :=
  (splitOnChar ',' s.toList).mapM parsePair

/-! ## Helper lemmas -/

set_option maxRecDepth 4000 in
theorem land_127_eq_mod (y : Nat) (h : y < 256) : Nat.land y 127 = y % 128 := by
  revert h
  revert y
  decide

set_option maxRecDepth 4000 in
theorem land_128_ne_zero (y : Nat) (h : y < 256) :
    Nat.land y 128 ≠ 0 ↔ 128 ≤ y := by
  revert h
  revert y
  decide

/-! ## C3: sign-magnitude codec -/

/-- C3: the 8-byte decoder `offtin` realises sign-magnitude little-endian
decoding: for every byte array `b[0..7]` the result is the sum of
`b[i] * 256^i` with `b[7]` masked to its low 7 bits, negated exactly when
the high bit of `b[7]` is set; consequently decoding the encoding of any
`v` with `|v| ≤ 2^63 - 1` yields `v` back, and the negative-zero encoding
decodes to `0`. -/
theorem offtin_sign_magnitude :
    (∀ b : List Nat,
      offtin b =
        (if Nat.land (b.getD 7 0) 128 ≠ 0 then (-1 : Int) else 1) *
          ((b.getD 0 0 : Int) + (b.getD 1 0 : Int) * 256 ^ 1 +
           (b.getD 2 0 : Int) * 256 ^ 2 + (b.getD 3 0 : Int) * 256 ^ 3 +
           (b.getD 4 0 : Int) * 256 ^ 4 + (b.getD 5 0 : Int) * 256 ^ 5 +
           (b.getD 6 0 : Int) * 256 ^ 6 +
           (Nat.land (b.getD 7 0) 127 : Int) * 256 ^ 7)) ∧
    (∀ v : Int, -(2 ^ 63 - 1) ≤ v → v ≤ 2 ^ 63 - 1 →
      offtin (offtout v) = v) ∧
    offtin negZeroEnc = 0 := by
  have horner : ∀ b : List Nat,
      offtin b =
        (if Nat.land (b.getD 7 0) 128 ≠ 0 then (-1 : Int) else 1) *
          ((b.getD 0 0 : Int) + (b.getD 1 0 : Int) * 256 ^ 1 +
           (b.getD 2 0 : Int) * 256 ^ 2 + (b.getD 3 0 : Int) * 256 ^ 3 +
           (b.getD 4 0 : Int) * 256 ^ 4 + (b.getD 5 0 : Int) * 256 ^ 5 +
           (b.getD 6 0 : Int) * 256 ^ 6 +
           (Nat.land (b.getD 7 0) 127 : Int) * 256 ^ 7) := by
    intro b
    simp only [offtin]
    split <;> push_cast <;> ring
  refine ⟨horner, ?_, by decide⟩
  intro v hlo hhi
  rw [horner]
  simp only [offtout, List.getD_cons_zero, List.getD_cons_succ]
  have hd7 : v.natAbs / 256 ^ 7 % 128 + (if v < 0 then 128 else 0) < 256 := by
    split <;> omega
  rw [land_127_eq_mod _ hd7]
  simp only [land_128_ne_zero _ hd7]
  have p2 : (256 : Nat) ^ 2 = 65536 := by norm_num
  have p3 : (256 : Nat) ^ 3 = 16777216 := by norm_num
  have p4 : (256 : Nat) ^ 4 = 4294967296 := by norm_num
  have p5 : (256 : Nat) ^ 5 = 1099511627776 := by norm_num
  have p6 : (256 : Nat) ^ 6 = 281474976710656 := by norm_num
  have p7 : (256 : Nat) ^ 7 = 72057594037927936 := by norm_num
  have q1 : (256 : Int) ^ 1 = 256 := by norm_num
  have q2 : (256 : Int) ^ 2 = 65536 := by norm_num
  have q3 : (256 : Int) ^ 3 = 16777216 := by norm_num
  have q4 : (256 : Int) ^ 4 = 4294967296 := by norm_num
  have q5 : (256 : Int) ^ 5 = 1099511627776 := by norm_num
  have q6 : (256 : Int) ^ 6 = 281474976710656 := by norm_num
  have q7 : (256 : Int) ^ 7 = 72057594037927936 := by norm_num
  norm_num at hlo hhi
  rcases lt_or_le v 0 with hv | hv
  · simp only [if_pos hv]
    rw [if_pos (by omega : 128 ≤ v.natAbs / 256 ^ 7 % 128 + 128)]
    simp only [p2, p3, p4, p5, p6, p7, q1, q2, q3, q4, q5, q6, q7]
    omega
  · simp only [if_neg (not_lt.mpr hv)]
    rw [if_neg (by omega : ¬ 128 ≤ v.natAbs / 256 ^ 7 % 128 + 0)]
    simp only [p2, p3, p4, p5, p6, p7, q1, q2, q3, q4, q5, q6, q7]
    omega

/-- Witness for C3: the round-trip hypotheses are satisfiable; decoding
the encodings of `-300` and of negative zero gives the expected values. -/
theorem offtin_sign_magnitude_witness :
    offtin (offtout (-300)) = -300 :=
  offtin_sign_magnitude.2.1 (-300) (by decide) (by decide)

/-! ## C4: header validation -/

/-- C4: for every 32-byte header, `readHeader` succeeds exactly when the
first 8 bytes are the ASCII magic "BSDIFF40" and the three decoded length
fields are all non-negative; and whenever the header is rejected the whole
patch application fails with no new-image bytes produced. -/
theorem readHeader_magic_and_nonneg (hdr : List Nat) (hlen : hdr.length = 32) :
    ((readHeader hdr).isSome ↔
      (hdr.take 8 = magicBytes ∧ 0 ≤ offtin (hdr.drop 8) ∧
        0 ≤ offtin (hdr.drop 16) ∧ 0 ≤ offtin (hdr.drop 24))) ∧
    (readHeader hdr = none →
      ∀ ctrl diff extra old, applyPatch hdr ctrl diff extra old = none) := by
  constructor
  · simp only [readHeader]
    rw [if_neg (by omega)]
    split
    · simp_all
    · split
      · rename_i hmag hneg
        simp only [Option.isSome_none, Bool.false_eq_true, false_iff]
        push_neg
        intro h1 h2 h3
        omega
      · rename_i hmag hneg
        push_neg at hmag hneg
        simp only [Option.isSome_some, true_iff]
        exact ⟨hmag, by omega, by omega, by omega⟩
  · intro hnone ctrl diff extra old
    rw [applyPatch, hnone]

/-- Witness for C4: a concrete header made of the magic followed by three
zero length fields passes the check, and a header with a corrupted magic
is rejected and aborts the application with no output. -/
theorem readHeader_magic_and_nonneg_witness :
    (readHeader (magicBytes ++ List.replicate 24 0)).isSome ∧
    applyPatch (49 :: List.replicate 31 0) [] [] [] [] = none :=
  ⟨(readHeader_magic_and_nonneg (magicBytes ++ List.replicate 24 0)
      (by decide)).1.mpr ⟨by decide, by decide, by decide, by decide⟩,
   (readHeader_magic_and_nonneg (49 :: List.replicate 31 0) (by decide)).2
      (by decide) [] [] [] []⟩

/-! ## Engine lemmas -/

theorem ite_set_length (c : Prop) [Decidable c] (seg : List Nat) (i : Nat)
    (v : Nat) : (if c then seg.set i v else seg).length = seg.length := by
  split <;> simp [List.length_set]

theorem addOldFrom_length (old : List Nat) (oldpos : Int) :
    ∀ (fuel : Nat) (seg : List Nat) (i : Nat), seg.length ≤ i + fuel →
      (addOldFrom old oldpos seg i).length = seg.length := by
  intro fuel
  induction fuel with
  | zero =>
    intro seg i hle
    unfold addOldFrom
    rw [dif_neg (by omega)]
  | succ k ih =>
    intro seg i hle
    unfold addOldFrom
    split
    · rename_i h
      rw [ih _ (i + 1) (by rw [ite_set_length]; omega)]
      rw [ite_set_length]
    · rfl

theorem addOldFrom_getElem?_lt (old : List Nat) (oldpos : Int) :
    ∀ (fuel : Nat) (seg : List Nat) (i j : Nat), seg.length ≤ i + fuel →
      j < i →
      (addOldFrom old oldpos seg i)[j]? = seg[j]? := by
  intro fuel
  induction fuel with
  | zero =>
    intro seg i j hle hj
    unfold addOldFrom
    rw [dif_neg (by omega)]
  | succ k ih =>
    intro seg i j hle hj
    unfold addOldFrom
    split
    · rename_i h
      rw [ih _ (i + 1) j (by rw [ite_set_length]; omega) (by omega)]
      split
      · exact List.getElem?_set_ne (by omega)
      · rfl
    · rfl

theorem addOldFrom_getElem? (old : List Nat) (oldpos : Int) :
    ∀ (fuel : Nat) (seg : List Nat) (i j : Nat), seg.length ≤ i + fuel →
      i ≤ j → j < seg.length →
      (addOldFrom old oldpos seg i)[j]? =
        some (if 0 ≤ oldpos + (j : Int) ∧ oldpos + (j : Int) < (old.length : Int)
         then (seg.getD j 0 + old.getD (oldpos + (j : Int)).toNat 0) % 256
         else seg.getD j 0) := by
  intro fuel
  induction fuel with
  | zero =>
    intro seg i j hle hij hjl
    omega
  | succ k ih =>
    intro seg i j hle hij hjl
    unfold addOldFrom
    rw [dif_pos (by omega)]
    rcases Nat.lt_or_ge i j with hlt | hge
    · rw [ih _ (i + 1) j (by rw [ite_set_length]; omega) (by omega)
        (by rw [ite_set_length]; omega)]
      by_cases hci : 0 ≤ oldpos + (i : Int) ∧ oldpos + (i : Int) <
          (old.length : Int)
      · simp only [if_pos hci]
        rw [List.getD_eq_getElem?_getD (seg.set i _),
          List.getElem?_set_ne (by omega : i ≠ j),
          ← List.getD_eq_getElem?_getD]
      · simp only [if_neg hci]
    · have hji : j = i := by omega
      subst hji
      rw [addOldFrom_getElem?_lt old oldpos (k + 1) _ (j + 1) j
        (by rw [ite_set_length]; omega) (by omega)]
      by_cases hci : 0 ≤ oldpos + (j : Int) ∧ oldpos + (j : Int) <
          (old.length : Int)
      · simp only [if_pos hci]
        rw [List.getElem?_set_self hjl]
        rw [List.getD_eq_getElem _ _ hjl, List.get_eq_getElem]
      · simp only [if_neg hci]
        rw [List.getElem?_eq_getElem hjl, List.getD_eq_getElem _ _ hjl]

/-- The length of the new-image prefix produced by a successful iteration:
the previous length plus `x + y` of the control triple; it never exceeds
`newsize` when the iteration succeeds. -/
theorem bspatchIter_length (old : List Nat) (newsize : Nat)
    (t : Int × Int × Int) (diff extra : List Nat) (oldpos : Int)
    (newb : List Nat) (res : Int × List Nat × List Nat × List Nat)
    (hsucc : bspatchIter old newsize t diff extra oldpos newb = some res) :
    res.2.1.length = newb.length + t.1.toNat + t.2.1.toNat ∧
      res.2.1.length ≤ newsize := by
  simp only [bspatchIter] at hsucc
  split_ifs at hsucc with h1 h2 h3 h4 h5
  push_neg at h1 h2 h3 h4 h5
  injection hsucc with hres
  subst hres
  have hlen : (addOldFrom old oldpos (diff.take t.1.toNat) 0).length
      = t.1.toNat := by
    rw [addOldFrom_length old oldpos (diff.take t.1.toNat).length _ 0
      (by omega)]
    rw [List.length_take]
    omega
  have hext : (extra.take t.2.1.toNat).length = t.2.1.toNat := by
    rw [List.length_take]
    omega
  simp only [List.length_append, hlen, hext] at h4 ⊢
  exact ⟨trivial, by omega⟩

/-! ## C2: loop invariant and exact output size -/

/-- C2: each control triple is bounds-checked, so one engine iteration
keeps the written length at or below the declared size `N`; and from any
state respecting that invariant (in particular from the initial empty
state) a successful run of the reconstruction loop writes exactly `N`
bytes. -/
theorem bspatchLoop_exact_size :
    (∀ (old : List Nat) (newsize : Nat) (t : Int × Int × Int)
       (diff extra : List Nat) (oldpos : Int) (newb : List Nat)
       (res : Int × List Nat × List Nat × List Nat),
       bspatchIter old newsize t diff extra oldpos newb = some res →
       res.2.1.length ≤ newsize) ∧
    (∀ (old : List Nat) (newsize : Nat) (ctrl : List (Int × Int × Int))
       (diff extra : List Nat) (oldpos : Int) (newb : List Nat)
       (r : List Nat), newb.length ≤ newsize →
       bspatchLoop old newsize ctrl diff extra oldpos newb = some r →
       r.length = newsize) := by
  constructor
  · intro old newsize t diff extra oldpos newb res hsucc
    exact (bspatchIter_length old newsize t diff extra oldpos newb res
      hsucc).2
  · intro old newsize ctrl
    induction ctrl with
    | nil =>
      intro diff extra oldpos newb r hinv hrun
      simp only [bspatchLoop] at hrun
      split_ifs at hrun
      injection hrun with hr
      subst hr
      omega
    | cons t ctrl' ih =>
      intro diff extra oldpos newb r hinv hrun
      simp only [bspatchLoop] at hrun
      split_ifs at hrun with hlt
      · rcases hit : bspatchIter old newsize t diff extra oldpos newb with
          _ | ⟨op', nb', d', e'⟩
        · rw [hit] at hrun
          exact Option.noConfusion hrun
        · rw [hit] at hrun
          exact ih d' e' op' nb' r
            (bspatchIter_length old newsize t diff extra oldpos newb _ hit).2
            hrun
      · injection hrun with hr
        subst hr
        omega

unseal addOldFrom in
/-- Witness for C2: a run with one control triple `(1, 1, 0)` over the
one-byte old image `[5]`, diff byte `2` and extra byte `9` satisfies the
invariant hypothesis and produces exactly the two declared bytes. -/
theorem bspatchLoop_exact_size_witness :
    bspatchLoop [5] 2 [(1, 1, 0)] [2] [9] 0 [] = some [7, 9] ∧
    ([] : List Nat).length ≤ 2 ∧ ([7, 9] : List Nat).length = 2 :=
  ⟨by decide, by decide,
   bspatchLoop_exact_size.2 [5] 2 [(1, 1, 0)] [2] [9] 0 [] [7, 9]
     (by decide) (by decide)⟩

/-! ## C1: additive copy semantics -/

/-- C1: for every control triple processed successfully (which forces
`x ≥ 0`), after the diff step of the iteration the new-image byte at index
`new_pos + i`, `i < x`, is the diff byte plus the old byte modulo 256 when
`old_pos + i` falls inside `[0, old_size)`, and the raw diff byte when it
falls outside; the addition is the unsigned 8-bit wrap-around of the
`u_char` addition in the source. -/
theorem bspatchIter_additive (old : List Nat) (newsize : Nat)
    (x y z : Int) (diff extra : List Nat) (oldpos : Int) (newb : List Nat)
    (op' : Int) (nb' d' e' : List Nat)
    (hsucc : bspatchIter old newsize (x, y, z) diff extra oldpos newb =
      some (op', nb', d', e')) :
    ∀ i : Nat, i < x.toNat →
      nb'.getD (newb.length + i) 0 =
        if 0 ≤ oldpos + (i : Int) ∧ oldpos + (i : Int) < (old.length : Int)
        then (diff.getD i 0 + old.getD (oldpos + (i : Int)).toNat 0) % 256
        else diff.getD i 0 := by
  simp only [bspatchIter] at hsucc
  split_ifs at hsucc with h1 h2 h3 h4 h5
  push_neg at h1 h2 h3 h4 h5
  simp only [Option.some.injEq, Prod.mk.injEq] at hsucc
  obtain ⟨-, hnb, -, -⟩ := hsucc
  subst hnb
  intro i hi
  have hAOF : (addOldFrom old oldpos (diff.take x.toNat) 0).length
      = x.toNat := by
    rw [addOldFrom_length old oldpos (diff.take x.toNat).length _ 0 (by omega)]
    rw [List.length_take]
    omega
  rw [List.getD_eq_getElem?_getD]
  rw [List.getElem?_append_left
    (by simp only [List.length_append, hAOF]; omega : newb.length + i <
      (newb ++ addOldFrom old oldpos (diff.take x.toNat) 0).length)]
  rw [List.getElem?_append_right (by omega : newb.length ≤ newb.length + i)]
  rw [Nat.add_sub_cancel_left]
  rw [addOldFrom_getElem? old oldpos (diff.take x.toNat).length _ 0 i
    (by omega) (by omega) (by rw [List.length_take]; omega)]
  rw [Option.getD_some]
  have htake : (diff.take x.toNat).getD i 0 = diff.getD i 0 := by
    rw [List.getD_eq_getElem?_getD, List.getElem?_take, if_pos hi,
      ← List.getD_eq_getElem?_getD]
  rw [htake]

unseal addOldFrom in
/-- Witness for C1: running one triple `(2, 0, 0)` with old image `[5]`
and diff bytes `[3, 4]` exercises both the in-range case
(`new[0] = (3 + 5) % 256 = 8`) and the out-of-range case
(`new[1] = 4` unchanged). -/
theorem bspatchIter_additive_witness :
    ([8, 4] : List Nat).getD (([] : List Nat).length + 0) 0 =
      if 0 ≤ (0 : Int) + ((0 : Nat) : Int) ∧
          (0 : Int) + ((0 : Nat) : Int) < (([5] : List Nat).length : Int)
      then (([3, 4] : List Nat).getD 0 0 +
        ([5] : List Nat).getD ((0 : Int) + ((0 : Nat) : Int)).toNat 0) % 256
      else ([3, 4] : List Nat).getD 0 0 :=
  bspatchIter_additive [5] 2 2 0 0 [3, 4] [] 0 [] 2 [8, 4] [] []
    (by decide) 0 (by decide)

/-! ## C9: allocation ceiling -/

theorem addOldFrom_nil (old : List Nat) (oldpos : Int) :
    addOldFrom old oldpos [] 0 = [] := by
  unfold addOldFrom
  rw [dif_neg (by simp)]

/-- A patch whose single triple is `(0, N, 0)` with extra stream
`replicate N b` reconstructs `replicate N b`, for every `N`: the engine
has no size ceiling of its own. -/
theorem bspatchLoop_extra_only (old : List Nat) (N b : Nat) :
    bspatchLoop old N [(0, (N : Int), 0)] [] (List.replicate N b) 0 [] =
      some (List.replicate N b) := by
  have hiter : bspatchIter old N (0, (N : Int), 0) [] (List.replicate N b) 0 []
      = some (0, List.replicate N b, [], []) := by
    simp only [bspatchIter, List.length_nil, List.take_nil, List.drop_nil,
      List.length_replicate, Int.toNat_natCast]
    rw [if_neg (by omega), if_neg (by push_cast; omega), if_neg (by omega)]
    rw [addOldFrom_nil]
    simp only [List.append_nil, List.nil_append, List.length_nil]
    rw [if_neg (by push_cast; omega), if_neg (by omega)]
    simp [List.take_replicate, List.drop_replicate]
  rcases Nat.eq_zero_or_pos N with h0 | hpos
  · subst h0
    simp [bspatchLoop]
  · simp only [bspatchLoop, hiter, List.length_nil, List.length_replicate,
      lt_self_iff_false, if_false]
    rw [if_pos hpos]

/-- C9 (amended): only the extent-assembled old-image buffer has the 1 GiB
sanity ceiling — `PositionedRead` refuses any positions string whose
lengths sum beyond `0x40000000`; the new-image buffer of `N + 1` bytes has
no ceiling check at all: after a valid header the engine runs whatever `N`
is, with allocation failure the only remaining guard. -/
theorem PositionedRead_ceiling_only_for_old :
    (∀ (file : List Nat) (vals : List Int) (L : Int),
       sumPosLens vals = some L → L > 0x40000000 →
       PositionedRead file vals = none) ∧
    (∀ (hdr : List Nat) (X Y N : Int) (ctrl : List (Int × Int × Int))
       (diff extra old : List Nat),
       readHeader hdr = some (X, Y, N) →
       applyPatch hdr ctrl diff extra old =
         bspatchLoop old N.toNat ctrl diff extra 0 []) := by
  constructor
  · intro file vals L hsum hgt
    simp only [PositionedRead, hsum]
    rw [if_pos hgt]
  · intro hdr X Y N ctrl diff extra old hrd
    simp only [applyPatch, hrd]

/-- Witness for C9 (amended): a positions string summing to `2^30 + 1`
bytes is refused, and after any valid header the application is exactly
the engine run. -/
theorem PositionedRead_ceiling_only_for_old_witness :
    PositionedRead [] [0, 1073741825] = none ∧
    applyPatch (magicBytes ++ List.replicate 24 0) [] [] [] [] =
      bspatchLoop [] (0 : Int).toNat [] [] [] 0 [] :=
  ⟨PositionedRead_ceiling_only_for_old.1 [] [0, 1073741825] 1073741825
      (by decide) (by decide),
   PositionedRead_ceiling_only_for_old.2 (magicBytes ++ List.replicate 24 0)
      0 0 0 [] [] [] [] (by decide)⟩

/-- Counterexample for C9 as stated: the claim says the new-image buffer
of `N + 1` bytes is refused when `N` exceeds 1 GiB, but a patch declaring
`N = 2^30 + 1 > 0x40000000` passes the header check and the engine runs to
completion, producing the full `N`-byte image — nothing refuses it. -/
theorem new_buffer_no_ceiling_counterexample :
    offtin ((magicBytes ++ List.replicate 16 0 ++
      [1, 0, 0, 64, 0, 0, 0, 0]).drop 24) = 1073741825 ∧
    (1073741825 : Int) > 0x40000000 ∧
    applyPatch (magicBytes ++ List.replicate 16 0 ++ [1, 0, 0, 64, 0, 0, 0, 0])
      [(0, 1073741825, 0)] [] (List.replicate 1073741825 0) [] =
      some (List.replicate 1073741825 0) := by
  refine ⟨by decide, by decide, ?_⟩
  have h : readHeader (magicBytes ++ List.replicate 16 0 ++
      [1, 0, 0, 64, 0, 0, 0, 0]) = some (0, 0, 1073741825) := by decide
  simp only [applyPatch, h]
  exact bspatchLoop_extra_only [] 1073741825 0

/-! ## C5: sparse reads -/

/-- C5: a read that lies wholly within a sparse extent delivers exactly
`size` zero bytes, advances the logical position, performs no underlying
syscall (the oracle counter and the tracked file position are untouched),
and — since the right-hand side does not mention `file` — is independent
of the underlying file content. -/
theorem exfile_read_sparse (orc : ROracle) (n : Nat) (file : List Nat)
    (xf : ExfileSt) (size : Nat)
    (h : xf.currExIdx < xf.exArr.length)
    (hsp : (xf.exArr.get ⟨xf.currExIdx, h⟩).off < 0)
    (hsz : 0 < size)
    (hin : xf.currExPos + size ≤ (xf.exArr.get ⟨xf.currExIdx, h⟩).len) :
    exfile_read orc n file xf size =
      (List.replicate size 0,
       { xf with currExPos := xf.currExPos + size,
                 currPos := xf.currPos + (size : Int) }, (size : Int), n) := by
  rw [exfile_read]
  rw [if_neg (by omega : ¬ size = 0)]
  rw [dif_pos h]
  rw [dif_neg (by omega :
    ¬ (xf.exArr.get ⟨xf.currExIdx, h⟩).len - xf.currExPos = 0)]
  rw [if_neg (by omega : ¬ (0 : Int) ≤ (xf.exArr.get ⟨xf.currExIdx, h⟩).off)]
  rw [Nat.min_eq_left (by omega :
    size ≤ (xf.exArr.get ⟨xf.currExIdx, h⟩).len - xf.currExPos)]
  unfold_let
  split
  · rfl
  · rw [Nat.sub_self size]
    rw [exfile_read]
    rw [if_pos rfl]
    simp

/-- Witness for C5: over extents `[(-1, 4), (0, 2)]` at position 1 inside
the sparse extent, a 2-byte read returns two zero bytes without touching
the oracle counter or the file position, for two different underlying
files. -/
theorem exfile_read_sparse_witness :
    exfile_read ⟨fun _ => true, fun _ => true⟩ 7 [119, 136]
      ⟨[⟨-1, 4⟩, ⟨0, 2⟩], 0, 0, 1, 1⟩ 2 =
      (List.replicate 2 0, ⟨[⟨-1, 4⟩, ⟨0, 2⟩], 0, 0, 3, 3⟩, 2, 7) ∧
    exfile_read ⟨fun _ => true, fun _ => true⟩ 7 []
      ⟨[⟨-1, 4⟩, ⟨0, 2⟩], 0, 0, 1, 1⟩ 2 =
      (List.replicate 2 0, ⟨[⟨-1, 4⟩, ⟨0, 2⟩], 0, 0, 3, 3⟩, 2, 7) :=
  ⟨exfile_read_sparse ⟨fun _ => true, fun _ => true⟩ 7 [119, 136]
     ⟨[⟨-1, 4⟩, ⟨0, 2⟩], 0, 0, 1, 1⟩ 2 (by decide) (by decide) (by decide)
     (by decide),
   exfile_read_sparse ⟨fun _ => true, fun _ => true⟩ 7 []
     ⟨[⟨-1, 4⟩, ⟨0, 2⟩], 0, 0, 1, 1⟩ 2 (by decide) (by decide) (by decide)
     (by decide)⟩

/-! ## C6: sparse writes and non-negative write counts -/

theorem exfile_write_count_nonneg_fuel :
    ∀ (fuel : Nat) (orc : WOracle) (n : Nat) (file : List Nat)
      (xf : ExfileSt) (buf : List Nat),
      buf.length + (xf.exArr.length - xf.currExIdx) ≤ fuel →
      0 ≤ (exfile_write orc n file xf buf).2.2.1 := by
  intro fuel
  induction fuel with
  | zero =>
    intro orc n file xf buf hle
    rw [exfile_write]
    rw [if_pos (by omega)]
  | succ k ih =>
    intro orc n file xf buf hle
    rw [exfile_write]
    by_cases h0 : buf.length = 0
    · rw [if_pos h0]
    · rw [if_neg h0]
      by_cases h : xf.currExIdx < xf.exArr.length
      · rw [dif_pos h]
        by_cases hrem : (xf.exArr.get ⟨xf.currExIdx, h⟩).len - xf.currExPos = 0
        · rw [dif_pos hrem]
          exact ih orc n file _ buf (by simp only []; omega)
        · rw [dif_neg hrem]
          unfold_let
          repeat' split
          all_goals simp only [Prod.snd]
          all_goals
            first
              | omega
              | (refine add_nonneg (by omega) (ih _ _ _ _ _ ?_)
                 simp only [List.length_drop]
                 omega)
      · rw [dif_neg h]

theorem exfile_write_nil (orc : WOracle) (n : Nat) (file : List Nat)
    (xf : ExfileSt) : exfile_write orc n file xf [] = (file, xf, 0, n) := by
  rw [exfile_write]
  rw [if_pos (show ([] : List Nat).length = 0 from rfl)]

/-- C6: a write that lies wholly within a sparse extent leaves the
underlying file exactly as it was and performs no underlying syscall (the
oracle counter is untouched), yet consumes and counts all `|buf|` bytes
and advances the logical position; and an extent-file write never reports
a negative count, whatever the underlying `lseek`/`write` calls return. -/
theorem exfile_write_sparse_and_nonneg :
    (∀ (orc : WOracle) (n : Nat) (file : List Nat) (xf : ExfileSt)
       (buf : List Nat) (h : xf.currExIdx < xf.exArr.length),
       (xf.exArr.get ⟨xf.currExIdx, h⟩).off < 0 →
       0 < buf.length →
       xf.currExPos + buf.length ≤ (xf.exArr.get ⟨xf.currExIdx, h⟩).len →
       exfile_write orc n file xf buf =
         (file, { xf with currExPos := xf.currExPos + buf.length,
                          currPos := xf.currPos + (buf.length : Int) },
          (buf.length : Int), n)) ∧
    (∀ (orc : WOracle) (n : Nat) (file : List Nat) (xf : ExfileSt)
       (buf : List Nat), 0 ≤ (exfile_write orc n file xf buf).2.2.1) := by
  constructor
  · intro orc n file xf buf h hsp hsz hin
    rw [exfile_write]
    rw [if_neg (by omega)]
    rw [dif_pos h]
    rw [dif_neg (by omega :
      ¬ (xf.exArr.get ⟨xf.currExIdx, h⟩).len - xf.currExPos = 0)]
    rw [if_neg (by omega :
      ¬ (0 : Int) ≤ (xf.exArr.get ⟨xf.currExIdx, h⟩).off)]
    rw [Nat.min_eq_left (by omega :
      buf.length ≤ (xf.exArr.get ⟨xf.currExIdx, h⟩).len - xf.currExPos)]
    unfold_let
    split
    · rfl
    · rw [List.drop_length]
      rw [exfile_write_nil]
      simp
  · intro orc n file xf buf
    exact exfile_write_count_nonneg_fuel
      (buf.length + (xf.exArr.length - xf.currExIdx)) orc n file xf buf
      (le_refl _)

/-- Witness for C6: a 2-byte write inside the sparse extent of
`[(-1, 4), (0, 2)]` leaves the 2-byte file `[9, 9]` unchanged, counts 2
bytes and does not consult the oracle; and a concrete write through a real
extent reports a non-negative count. -/
theorem exfile_write_sparse_and_nonneg_witness :
    exfile_write ⟨fun _ => true, fun _ c => (c : Int)⟩ 3 [9, 9]
      ⟨[⟨-1, 4⟩, ⟨0, 2⟩], 0, 0, 1, 1⟩ [1, 2] =
      ([9, 9], ⟨[⟨-1, 4⟩, ⟨0, 2⟩], 0, 0, 3, 3⟩, 2, 3) ∧
    0 ≤ (exfile_write ⟨fun _ => true, fun _ c => (c : Int)⟩ 0 []
      ⟨[⟨0, 1⟩], 0, 0, 0, 0⟩ [5]).2.2.1 :=
  ⟨exfile_write_sparse_and_nonneg.1 ⟨fun _ => true, fun _ c => (c : Int)⟩ 3
     [9, 9] ⟨[⟨-1, 4⟩, ⟨0, 2⟩], 0, 0, 1, 1⟩ [1, 2] (by decide) (by decide)
     (by decide) (by decide),
   exfile_write_sparse_and_nonneg.2 ⟨fun _ => true, fun _ c => (c : Int)⟩ 0
     [] ⟨[⟨0, 1⟩], 0, 0, 0, 0⟩ [5]⟩

/-! ## C7: prefix-length arithmetic and end-of-view behavior -/

theorem sumLens_append (l1 l2 : List Ex) :
    sumLens (l1 ++ l2) = sumLens l1 + sumLens l2 := by
  simp [sumLens, List.sum_append]

theorem sumLens_split (l : List Ex) (k : Nat) :
    sumLens l = precLen l k + sumLens (l.drop k) := by
  conv_lhs => rw [← List.take_append_drop k l]
  rw [sumLens_append]
  rfl

theorem lenAt_eq_getElem (l : List Ex) (k : Nat) (h : k < l.length) :
    lenAt l k = l[k].len := by
  simp [lenAt, List.get?_eq_getElem?, List.getElem?_eq_getElem h]

theorem sumLens_drop_cons (l : List Ex) (k : Nat) (h : k < l.length) :
    sumLens (l.drop k) = lenAt l k + sumLens (l.drop (k + 1)) := by
  rw [List.drop_eq_getElem_cons h, lenAt_eq_getElem l k h]
  simp only [sumLens, List.map_cons, List.sum_cons]

theorem precLen_succ (l : List Ex) (k : Nat) (h : k < l.length) :
    precLen l (k + 1) = precLen l k + lenAt l k := by
  rw [lenAt_eq_getElem l k h, precLen, precLen, List.take_succ,
    List.getElem?_eq_getElem h]
  rw [show (some l[k]).toList = [l[k]] from rfl]
  rw [sumLens_append]
  simp [sumLens]

theorem precLen_full (l : List Ex) : precLen l l.length = sumLens l := by
  simp [precLen, List.take_length]

theorem totalExLen_eq_sumLens (l : List Ex) (hne : l ≠ []) :
    totalExLen l = sumLens l := by
  have hlen : 0 < l.length := List.length_pos.mpr hne
  rw [totalExLen, ← precLen_succ l (l.length - 1) (by omega)]
  rw [show l.length - 1 + 1 = l.length by omega]
  exact precLen_full l

theorem exfile_read_at_end :
    ∀ (gap : Nat) (orc : ROracle) (n : Nat) (file : List Nat)
      (xf : ExfileSt) (size : Nat),
      xf.exArr.length - xf.currExIdx ≤ gap →
      sumLens (xf.exArr.drop xf.currExIdx) ≤ xf.currExPos →
      (∀ h : xf.currExIdx < xf.exArr.length,
        xf.currExPos ≤ (xf.exArr.get ⟨xf.currExIdx, h⟩).len) →
      (exfile_read orc n file xf size).1 = [] ∧
        (exfile_read orc n file xf size).2.2.1 = 0 ∧
        (exfile_read orc n file xf size).2.2.2 = n := by
  intro gap
  induction gap with
  | zero =>
    intro orc n file xf size hgap hend hpos
    rw [exfile_read]
    by_cases hs : size = 0
    · rw [if_pos hs]
      exact ⟨rfl, rfl, rfl⟩
    · rw [if_neg hs]
      rw [dif_neg (by omega)]
      exact ⟨rfl, rfl, rfl⟩
  | succ k ih =>
    intro orc n file xf size hgap hend hpos
    rw [exfile_read]
    by_cases hs : size = 0
    · rw [if_pos hs]
      exact ⟨rfl, rfl, rfl⟩
    · rw [if_neg hs]
      by_cases h : xf.currExIdx < xf.exArr.length
      · rw [dif_pos h]
        have hlen : lenAt xf.exArr xf.currExIdx =
            (xf.exArr.get ⟨xf.currExIdx, h⟩).len := by
          simp [lenAt, List.getElem?_eq_getElem h]
        have hsum := sumLens_drop_cons xf.exArr xf.currExIdx h
        have hp := hpos h
        rw [dif_pos (by omega)]
        exact ih orc n file _ size (by simp only []; omega)
          (by simp only []; omega)
          (fun _ => by simp only []; omega)
      · rw [dif_neg h]
        exact ⟨rfl, rfl, rfl⟩

theorem exfile_write_at_end :
    ∀ (gap : Nat) (orc : WOracle) (n : Nat) (file : List Nat)
      (xf : ExfileSt) (buf : List Nat),
      xf.exArr.length - xf.currExIdx ≤ gap →
      sumLens (xf.exArr.drop xf.currExIdx) ≤ xf.currExPos →
      (∀ h : xf.currExIdx < xf.exArr.length,
        xf.currExPos ≤ (xf.exArr.get ⟨xf.currExIdx, h⟩).len) →
      (exfile_write orc n file xf buf).1 = file ∧
        (exfile_write orc n file xf buf).2.2.1 = 0 ∧
        (exfile_write orc n file xf buf).2.2.2 = n := by
  intro gap
  induction gap with
  | zero =>
    intro orc n file xf buf hgap hend hpos
    rw [exfile_write]
    by_cases hs : buf.length = 0
    · rw [if_pos hs]
      exact ⟨rfl, rfl, rfl⟩
    · rw [if_neg hs]
      rw [dif_neg (by omega)]
      exact ⟨rfl, rfl, rfl⟩
  | succ k ih =>
    intro orc n file xf buf hgap hend hpos
    rw [exfile_write]
    by_cases hs : buf.length = 0
    · rw [if_pos hs]
      exact ⟨rfl, rfl, rfl⟩
    · rw [if_neg hs]
      by_cases h : xf.currExIdx < xf.exArr.length
      · rw [dif_pos h]
        have hlen : lenAt xf.exArr xf.currExIdx =
            (xf.exArr.get ⟨xf.currExIdx, h⟩).len := by
          simp [lenAt, List.getElem?_eq_getElem h]
        have hsum := sumLens_drop_cons xf.exArr xf.currExIdx h
        have hp := hpos h
        rw [dif_pos (by omega)]
        exact ih orc n file _ buf (by simp only []; omega)
          (by simp only []; omega)
          (fun _ => by simp only []; omega)
      · rw [dif_neg h]
        exact ⟨rfl, rfl, rfl⟩

/-- C7: for every non-empty extent sequence, `seek(0, END)` succeeds and
returns the sum of the extent lengths `L`; a seek succeeds exactly when
its absolute target lies in `[0, L]`, so seeking exactly to `L` is valid;
and at logical position `L` a read delivers no bytes and a write reports a
zero count and leaves the file untouched. -/
theorem exfile_seek_end_and_bounds :
    (∀ xf : ExfileSt, xf.exArr ≠ [] →
      (exfile_seek xf 0 Whence.seekEnd).2 = some (sumLens xf.exArr : Int)) ∧
    (∀ (xf : ExfileSt) (p : Int) (w : Whence), xf.exArr ≠ [] →
      ((exfile_seek xf p w).2.isSome ↔
        0 ≤ seekTarget xf p w ∧
          seekTarget xf p w ≤ (sumLens xf.exArr : Int))) ∧
    (∀ xf : ExfileSt, xf.exArr ≠ [] →
      (exfile_seek xf (sumLens xf.exArr : Int) Whence.seekSet).2 =
        some (sumLens xf.exArr : Int)) ∧
    (∀ (orc : ROracle) (n : Nat) (file : List Nat) (xf : ExfileSt)
       (size : Nat), ExInv xf → xf.currPos = (sumLens xf.exArr : Int) →
       (exfile_read orc n file xf size).1 = [] ∧
         (exfile_read orc n file xf size).2.2.1 = 0) ∧
    (∀ (orc : WOracle) (n : Nat) (file : List Nat) (xf : ExfileSt)
       (buf : List Nat), ExInv xf → xf.currPos = (sumLens xf.exArr : Int) →
       (exfile_write orc n file xf buf).1 = file ∧
         (exfile_write orc n file xf buf).2.2.1 = 0) := by
  have hat : ∀ xf : ExfileSt, ExInv xf →
      xf.currPos = (sumLens xf.exArr : Int) →
      sumLens (xf.exArr.drop xf.currExIdx) ≤ xf.currExPos := by
    intro xf hinv hL
    obtain ⟨hle, hzero, hpos, hsum⟩ := hinv
    have hsplit := sumLens_split xf.exArr xf.currExIdx
    omega
  refine ⟨?_, ?_, ?_, ?_, ?_⟩
  · intro xf hne
    simp only [exfile_seek, seekTarget]
    rw [totalExLen_eq_sumLens _ hne]
    rw [if_neg (by omega)]
    simp
  · intro xf p w hne
    simp only [exfile_seek]
    rw [totalExLen_eq_sumLens _ hne]
    split
    · rename_i hout
      simp only [Option.isSome_none, Bool.false_eq_true, false_iff]
      omega
    · rename_i hin
      simp only [Option.isSome_some, true_iff]
      omega
  · intro xf hne
    simp only [exfile_seek, seekTarget]
    rw [totalExLen_eq_sumLens _ hne]
    rw [if_neg (by omega)]
  · intro orc n file xf size hinv hL
    obtain ⟨h1, h2⟩ := (exfile_read_at_end
      (xf.exArr.length - xf.currExIdx) orc n file xf size (le_refl _)
      (hat xf hinv hL) hinv.2.2.1)
    exact ⟨h1, h2.1⟩
  · intro orc n file xf buf hinv hL
    obtain ⟨h1, h2⟩ := (exfile_write_at_end
      (xf.exArr.length - xf.currExIdx) orc n file xf buf (le_refl _)
      (hat xf hinv hL) hinv.2.2.1)
    exact ⟨h1, h2.1⟩

/-- Witness for C7: over the extents `[(-1, 4), (0, 2)]` (logical length
6), seeking to the end from position 1 returns 6; an in-range seek to 6
succeeds; and at position 6 (a valid state satisfying the invariant) a
3-byte read returns no bytes and a 2-byte write returns count 0 leaving
the file `[7]` unchanged. -/
theorem exfile_seek_end_and_bounds_witness :
    (exfile_seek ⟨[⟨-1, 4⟩, ⟨0, 2⟩], 0, 0, 1, 1⟩ 0 Whence.seekEnd).2 =
      some 6 ∧
    (exfile_read ⟨fun _ => true, fun _ => true⟩ 2 [7]
      ⟨[⟨-1, 4⟩, ⟨0, 2⟩], 0, 2, 0, 6⟩ 3).1 = [] ∧
    (exfile_write ⟨fun _ => true, fun _ c => (c : Int)⟩ 2 [7]
      ⟨[⟨-1, 4⟩, ⟨0, 2⟩], 0, 2, 0, 6⟩ [1, 2]).1 = [7] :=
  ⟨exfile_seek_end_and_bounds.1 ⟨[⟨-1, 4⟩, ⟨0, 2⟩], 0, 0, 1, 1⟩
     (by decide),
   (exfile_seek_end_and_bounds.2.2.2.1 ⟨fun _ => true, fun _ => true⟩ 2 [7]
     ⟨[⟨-1, 4⟩, ⟨0, 2⟩], 0, 2, 0, 6⟩ 3
     ⟨by decide, fun _ => rfl, fun h => absurd h (by decide), by decide⟩
     (by decide)).1,
   (exfile_seek_end_and_bounds.2.2.2.2 ⟨fun _ => true, fun _ c => (c : Int)⟩
     2 [7] ⟨[⟨-1, 4⟩, ⟨0, 2⟩], 0, 2, 0, 6⟩ [1, 2]
     ⟨by decide, fun _ => rfl, fun h => absurd h (by decide), by decide⟩
     (by decide)).1⟩

/-! ## C10: failed seeks are atomic -/

/-- C10: a seek whose absolute target falls outside `[0, L]` fails (C
returns -1, here `none`) and returns the state exactly as it was — the
bounds check precedes every state update — so subsequent reads, writes and
seeks behave as if the failed seek had never happened. -/
theorem exfile_seek_failure_atomic :
    ∀ (xf : ExfileSt) (p : Int) (w : Whence), xf.exArr ≠ [] →
      (seekTarget xf p w < 0 ∨ (sumLens xf.exArr : Int) < seekTarget xf p w) →
      exfile_seek xf p w = (xf, none) ∧
      (∀ (orc : ROracle) (n : Nat) (file : List Nat) (size : Nat),
        exfile_read orc n file (exfile_seek xf p w).1 size =
          exfile_read orc n file xf size) ∧
      (∀ (orc : WOracle) (n : Nat) (file : List Nat) (buf : List Nat),
        exfile_write orc n file (exfile_seek xf p w).1 buf =
          exfile_write orc n file xf buf) ∧
      (∀ (p2 : Int) (w2 : Whence),
        exfile_seek (exfile_seek xf p w).1 p2 w2 = exfile_seek xf p2 w2) := by
  intro xf p w hne hout
  have h1 : exfile_seek xf p w = (xf, none) := by
    simp only [exfile_seek]
    rw [totalExLen_eq_sumLens _ hne]
    rw [if_pos (by omega)]
  exact ⟨h1,
    fun orc n file size => by rw [h1],
    fun orc n file buf => by rw [h1],
    fun p2 w2 => by rw [h1]⟩

/-- Witness for C10: over the single sparse extent `(-1, 4)` (logical
length 4) a seek to 7 fails atomically, and a subsequent 1-byte read
behaves exactly as without the failed seek. -/
theorem exfile_seek_failure_atomic_witness :
    exfile_seek ⟨[⟨-1, 4⟩], 0, 0, 1, 1⟩ 7 Whence.seekSet =
      (⟨[⟨-1, 4⟩], 0, 0, 1, 1⟩, none) ∧
    exfile_read ⟨fun _ => true, fun _ => true⟩ 0 []
      (exfile_seek ⟨[⟨-1, 4⟩], 0, 0, 1, 1⟩ 7 Whence.seekSet).1 1 =
      exfile_read ⟨fun _ => true, fun _ => true⟩ 0 []
        ⟨[⟨-1, 4⟩], 0, 0, 1, 1⟩ 1 :=
  ⟨(exfile_seek_failure_atomic ⟨[⟨-1, 4⟩], 0, 0, 1, 1⟩ 7 Whence.seekSet
      (by decide) (by decide)).1,
   (exfile_seek_failure_atomic ⟨[⟨-1, 4⟩], 0, 0, 1, 1⟩ 7 Whence.seekSet
      (by decide) (by decide)).2.1 ⟨fun _ => true, fun _ => true⟩ 0 [] 1⟩

/-! ## C8: the extent parser rejects the empty string -/

/-- C8: parsing the empty extent specification fails with a parse error
(`none`) rather than producing an empty or otherwise valid extent
sequence: splitting `""` on `","` yields the single component `""`, which
is not a valid `offset:length` pair. -/
theorem extents_parse_empty : extents_parse "" = none := by decide

/-- Sanity anchor for the spec-modelled parser: the spec's example string
parses to the documented extents, so the model is not vacuous. -/
theorem extents_parse_example :
    extents_parse "0:100,-1:50,200:25" =
      some [⟨0, 100⟩, ⟨-1, 50⟩, ⟨200, 25⟩] := by decide

end Bspatch
